import Mathlib

/-!
Verification of the FX Relative Strength Visualizer data pipeline.

The JavaScript source is shallowly embedded here:

* JS objects used as string-keyed dictionaries become functions
  `String → Option β` (`none` models both a missing key and `null`);
* JS numbers become `ℚ` (exact arithmetic) where the code keeps them
  finite; the derived series (rebased, cumulative return, relative
  strength, rank inputs) divide by a possibly-zero start price, so they
  carry `JsNum` values that track `NaN` and signed infinities the way
  the JS arithmetic does; the rolling z-score's square root forces `ℝ`;
* a JS runtime crash (property access on `undefined`) is modelled by an
  explicit `crash` result constructor.
-/

namespace FXViz

/-- A JS object holding per-asset values: `none` models a missing key or
an explicit `null`. -/
def updVal {β : Type} (m : String → Option β) (k : String) (v : Option β) :
    String → Option β :=
  fun x => if x = k then v else m x

/-- Builds the object produced by `assets.forEach(a => obj[a] = f(a))`
starting from the empty object `{}`, where `f` may assign `null`
(modelled `none`). -/
def buildObjOpt {β : Type} (assets : List String) (f : String → Option β) :
    String → Option β :=
  assets.foldl (fun m a => updVal m a (f a)) (fun _ => none)

/-- Builds the object produced by `assets.forEach(a => obj[a] = f(a))`
starting from the empty object `{}`. -/
def buildObj {β : Type} (assets : List String) (f : String → β) :
    String → Option β :=
  buildObjOpt assets (fun a => some (f a))

/-- The empty JS object `{}` viewed as a price dictionary. -/
def emptyPrices : String → Option ℚ := fun _ => none

/-- One raw observation `{ date, prices }` of the common data shape. -/
structure Observation where
  date : String
  prices : String → Option ℚ

/-- `data.rates[date]` lookup for the fiat payload
`{ rates: { "<date>": { "<SYMBOL>": <rate> } } }`; an absent date maps to
the empty rate set. -/
def fiatRates (data : List (String × (String → Option ℚ))) (d : String) :
    String → Option ℚ :=
  (data.lookup d).getD (fun _ => none)

/-- `DataFetcher._processFiatResponse`: sorts the payload's date keys,
and for each date builds prices over the requested assets: the base
currency gets `1.0`; otherwise `rates[asset]` is tested for JS
truthiness (`none` and rate `0` are falsy, giving a `null` price) and a
truthy rate is inverted to `1 / rate`. -/
def processFiatResponse (data : List (String × (String → Option ℚ)))
    (assets : List String) (base : String) : List Observation :=
  let dates := (data.map Prod.fst).mergeSort (fun a b => decide (a ≤ b))
  dates.map (fun date =>
    { date := date
      prices := buildObjOpt assets (fun asset =>
        if asset = base then some 1
        else
          match fiatRates data date asset with
          | some r => if r = 0 then none else some (1 / r)
          | none => none) })

/-- One candle returned by the crypto endpoint; only the fields the code
reads are modelled: `kline[0]` (open time, milliseconds) and `kline[4]`
(close price, already parsed to a number). -/
structure Kline where
  openTime : Int
  close : ℚ

/-- One step of the merge in `DataFetcher._processCryptoResponse`: the
date string is derived from the candle's open timestamp (the
`new Date(t).toISOString().split('T')[0]` library call is abstracted as
`tsToDate`); a fresh date appends a new `{date, prices: {}}` entry, then
`prices[asset] = close` is written in place. -/
def insertKline (tsToDate : Int → String) (asset : String)
    (m : List (String × (String → Option ℚ))) (k : Kline) :
    List (String × (String → Option ℚ)) :=
  let dateStr := tsToDate k.openTime
  if dateStr ∈ m.map Prod.fst then
    m.map (fun e => if e.1 = dateStr then (e.1, updVal e.2 asset (some k.close)) else e)
  else
    m ++ [(dateStr, updVal emptyPrices asset (some k.close))]

/-- `DataFetcher._processCryptoResponse`: merges per-asset kline lists
into one date-keyed table (insertion-ordered, as a JS `Map`), then sorts
the values by date ascending (`localeCompare` on ASCII dates is plain
string order). -/
def processCryptoResponse (tsToDate : Int → String)
    (results : List (String × List Kline)) : List Observation :=
  let m := results.foldl
    (fun m r => r.2.foldl (insertKline tsToDate r.1) m) []
  (m.map (fun e => Observation.mk e.1 e.2)).mergeSort
    (fun a b => decide (a.date ≤ b.date))

/-- `DataFetcher.fetchCrypto` outcome handling: each asset's request
either yields klines or fails (non-success HTTP status or a thrown
error), and a failed request is replaced by the empty kline list before
the merge. -/
def fetchCryptoMerge (tsToDate : Int → String)
    (outcomes : List (String × Option (List Kline))) : List Observation :=
  processCryptoResponse tsToDate (outcomes.map (fun p => (p.1, p.2.getD [])))

/-- The per-row body of `DataProcessor._forwardFill`: scanning the
requested assets, a present price is recorded as last-known, and an
absent one is replaced by the last-known value (which may itself still
be absent). State is the pair (lastKnown, newPrices), initially
(lastKnown, a copy of the row's prices). -/
def fillRow (assets : List String) (lk : String → Option ℚ)
    (row : Observation) :
    (String → Option ℚ) × (String → Option ℚ) :=
  assets.foldl
    (fun st a =>
      match st.2 a with
      | some v => (updVal st.1 a (some v), st.2)
      | none => (st.1, updVal st.2 a (st.1 a)))
    (lk, row.prices)

/-- The scan of `DataProcessor._forwardFill` over the rows, threading
the `lastKnown` dictionary. -/
def fillScan (assets : List String) (lk : String → Option ℚ) :
    List Observation → List Observation
  | [] => []
  | row :: rest =>
    let st := fillRow assets lk row
    Observation.mk row.date st.2 :: fillScan assets st.1 rest

/-- `DataProcessor._forwardFill`: forward-fills every requested asset,
then drops the rows on which some requested asset is still absent (the
leading run before that asset's first observation). -/
def forwardFill (data : List Observation) (assets : List String) :
    List Observation :=
  (fillScan assets emptyPrices data).filter
    (fun row => assets.all (fun a => (row.prices a).isSome))

/-- Placeholder observation used to express `cleanData[0]` totally; it
is only reachable when the clean series is non-empty, which the crash
branch of `process` guarantees at every use site. -/
def defaultObs : Observation := Observation.mk "" emptyPrices

/-- The per-asset price column `cleanData.map(row => row.prices[a])`; on
a clean series the lookup never misses, so the `getD 0` default is
unreachable there. -/
def assetSeries (data : List Observation) (a : String) : List ℚ :=
  data.map (fun row => (row.prices a).getD 0)

/-- `cleanData[0].prices[a]`, the start price an asset is rebased
against. -/
def startPriceOf (data : List Observation) (a : String) : ℚ :=
  ((data.headD defaultObs).prices a).getD 0

/-- A JS number as the derived-series arithmetic produces it: a finite
value, a signed infinity, or `NaN`. The price feeds only carry finite
values; dividing by a zero start price introduces `Infinity` (nonzero
numerator) and `NaN` (`0/0`), and both propagate through the later
arithmetic. -/
inductive JsNum where
  | fin (q : ℚ)
  | inf (pos : Bool)
  | nan
deriving DecidableEq

/-- JS division of two finite values: `a / b` is finite for `b ≠ 0`,
`NaN` for `0 / 0`, and a signed infinity for `a / 0` with `a ≠ 0`. -/
def jsDiv (a b : ℚ) : JsNum :=
  if b ≠ 0 then JsNum.fin (a / b)
  else if a = 0 then JsNum.nan
  else JsNum.inf (decide (0 < a))

/-- JS multiplication by the positive literal `100`: finite values
scale, infinities keep their sign, `NaN` propagates. -/
def jsMul100 : JsNum → JsNum
  | JsNum.fin q => JsNum.fin (q * 100)
  | JsNum.inf s => JsNum.inf s
  | JsNum.nan => JsNum.nan

/-- JS subtraction: finite minus finite is exact, `NaN` propagates, an
infinity absorbs finite values, and same-signed infinities cancel to
`NaN`. -/
def jsSub : JsNum → JsNum → JsNum
  | JsNum.fin a, JsNum.fin b => JsNum.fin (a - b)
  | JsNum.nan, _ => JsNum.nan
  | _, JsNum.nan => JsNum.nan
  | JsNum.inf s, JsNum.fin _ => JsNum.inf s
  | JsNum.fin _, JsNum.inf s => JsNum.inf (!s)
  | JsNum.inf s, JsNum.inf t => if s = t then JsNum.nan else JsNum.inf s

/-- The JS comparison `x <= y`: false whenever either side is `NaN`. -/
def jsLe : JsNum → JsNum → Bool
  | JsNum.nan, _ => false
  | _, JsNum.nan => false
  | JsNum.fin a, JsNum.fin b => decide (a ≤ b)
  | JsNum.inf s, JsNum.fin _ => !s
  | JsNum.fin _, JsNum.inf s => s
  | JsNum.inf s, JsNum.inf t => !s || t

/-- `rebased[a] = cleanData.map(row => (row.prices[a] / startPrice) * 100)`
over JS numbers: a zero start price yields `NaN` or `Infinity`
entries. -/
def rebasedSeries (data : List Observation) (a : String) : List JsNum :=
  data.map (fun row =>
    jsMul100 (jsDiv ((row.prices a).getD 0) (startPriceOf data a)))

/-- `cumRet[a] = cleanData.map(row => (row.prices[a] / startPrice) - 1)`
over JS numbers. -/
def cumRetSeries (data : List Observation) (a : String) : List JsNum :=
  data.map (fun row =>
    jsSub (jsDiv ((row.prices a).getD 0) (startPriceOf data a)) (JsNum.fin 1))

/-- `relative[a] = cumRet[a].map((val, i) => val - cumRet[baseAsset][i])`
with `baseAsset = assets[0]`, written as an index map over the equal
length `cumRet[a]`; an out-of-range JS access would be `undefined`,
whose subtraction gives `NaN`, hence the `NaN` default. -/
def relativeSeries (data : List Observation) (assets : List String)
    (a : String) : List JsNum :=
  (List.range data.length).map (fun i =>
    jsSub ((cumRetSeries data a).getD i JsNum.nan)
      ((cumRetSeries data (assets.headD "")).getD i JsNum.nan))

/-- The rebased column in the finite regime (nonzero start price),
where the JS division stays finite and agrees with exact division. -/
def finRebased (data : List Observation) (a : String) : List ℚ :=
  data.map (fun row => (row.prices a).getD 0 / startPriceOf data a * 100)

/-- The `YYYY-MM` month key `row.date.substring(0, 7)`: the first seven
characters of the date string, written over the character list so that
it reduces structurally. -/
def monthKey (row : Observation) : String := String.mk (row.date.data.take 7)

/-- One step of the month grouping: a known month key has its `end`
observation overwritten in place; a fresh key appends a new
`{start: row, end: row}` entry (JS `Map` insertion order). -/
def monthStep (m : List (String × Observation × Observation))
    (row : Observation) : List (String × Observation × Observation) :=
  if monthKey row ∈ m.map Prod.fst then
    m.map (fun e => if e.1 = monthKey row then (e.1, e.2.1, row) else e)
  else
    m ++ [(monthKey row, row, row)]

/-- The `monthMap` of `DataProcessor._calculateMonthlyReturns`. -/
def monthGroups (data : List Observation) :
    List (String × Observation × Observation) :=
  data.foldl monthStep []

/-- The `{x, y, z}` heatmap payload. -/
structure MonthlyReturns where
  x : List String
  y : List String
  z : List (List ℚ)

/-- `DataProcessor._calculateMonthlyReturns`: per asset and per month
(in key insertion order, keys being unique by construction),
`(pEnd - pStart) / pStart * 100` from the month's start and end
observations. -/
def calculateMonthlyReturns (data : List Observation)
    (assets : List String) : MonthlyReturns :=
  { x := (monthGroups data).map Prod.fst
    y := assets
    z := assets.map (fun asset =>
      (monthGroups data).map (fun e =>
        (((e.2.2.prices asset).getD 0 - (e.2.1.prices asset).getD 0)
          / (e.2.1.prices asset).getD 0) * 100)) }

/-- The window `series.slice(i - window, i)` of the rolling z-score. -/
def trailSlice (series : List ℚ) (i w : ℕ) : List ℚ :=
  (series.drop (i - w)).take w

/-- `slice.reduce((a,b) => a+b, 0) / window`. -/
def trailMean (series : List ℚ) (i w : ℕ) : ℚ :=
  (trailSlice series i w).sum / w

/-- `slice.reduce((a,b) => a + Math.pow(b - mean, 2), 0) / window`. -/
def trailVariance (series : List ℚ) (i w : ℕ) : ℚ :=
  ((trailSlice series i w).map (fun b => (b - trailMean series i w) ^ 2)).sum / w

/-- `Math.sqrt(variance)`. -/
noncomputable def trailStd (series : List ℚ) (i w : ℕ) : ℝ :=
  Real.sqrt (trailVariance series i w)

/-- The value `(series[i] - mean) / (std || 1)` computed by the rolling
z-score loop: the current price's deviation from the trailing window's
simple mean, scaled by the trailing window's population standard
deviation, with the `|| 1` guard replacing a zero standard deviation by
`1`. -/
noncomputable def zFormula (series : List ℚ) (i w : ℕ) : ℝ :=
  (((series.getD i 0 : ℚ) : ℝ) - (trailMean series i w : ℚ))
    / (if trailStd series i w = 0 then 1 else trailStd series i w)

/-- The per-asset loop body of `DataProcessor._calculateRollingZScore`:
indices below `window * 2` are null; later ones get
`(series[i] - mean) / (std || 1)`. -/
noncomputable def zScoreSeries (series : List ℚ) (window : ℕ) :
    List (Option ℝ) :=
  (List.range series.length).map (fun i =>
    if i < window * 2 then none
    else some (zFormula series i window))

/-- `DataProcessor._calculateRollingZScore`: the per-asset result
object. -/
noncomputable def calculateRollingZScore (data : List Observation)
    (assets : List String) (window : ℕ) :
    String → Option (List (Option ℝ)) :=
  buildObj assets (fun asset => zScoreSeries (assetSeries data asset) window)

/-- The `currentPerf` array of the rank computation at date index `i`:
`assets.map(a => ({asset: a, val: rebased[a][i]}))`; an out-of-range
access would be `undefined`, modelled `NaN`. -/
def perfList (data : List Observation) (assets : List String) (i : ℕ) :
    List (String × JsNum) :=
  assets.map (fun a => (a, (rebasedSeries data a).getD i JsNum.nan))

/-- The sort comparator `(x, y) => y.val - x.val` as a stable
`Array.prototype.sort` consumes it: `x` may stay before `y` exactly
when the comparator value is `≤ 0`, a `NaN` comparator value being
coerced to `+0` by `SortCompare` (so `NaN` comparisons count as
ties). -/
def perfDesc (x y : String × JsNum) : Bool :=
  match jsSub y.2 x.2 with
  | JsNum.fin q => decide (q ≤ 0)
  | JsNum.inf s => !s
  | JsNum.nan => true

/-- The comparator restricted to finite values: descending by value,
ties kept stable. -/
def finPerfDesc (x y : String × ℚ) : Bool := decide (y.2 ≤ x.2)

/-- The `currentPerf` array in the finite regime. -/
def finPerfList (data : List Observation) (assets : List String) (i : ℕ) :
    List (String × ℚ) :=
  assets.map (fun a => (a, (finRebased data a).getD i 0))

/-- The dictionary built by `currentPerf.forEach((item, idx) =>
rankMap[item.asset] = idx + 1)` over an already sorted array. -/
def rankMapOf {β : Type} (sorted : List (String × β)) : String → Option ℕ :=
  sorted.enum.foldl (fun m p => updVal m p.2.1 (some (p.1 + 1)))
    (fun _ => none)

/-- The per-date `rankMap`: sort `currentPerf` descending by value with
a stable sort, then `rankMap[item.asset] = idx + 1`. -/
def ranksAt (data : List Observation) (assets : List String) (i : ℕ) :
    String → Option ℕ :=
  rankMapOf ((perfList data assets i).mergeSort perfDesc)

/-- The per-date rank map computed in the finite regime. -/
def finRanksAt (data : List Observation) (assets : List String) (i : ℕ) :
    String → Option ℕ :=
  rankMapOf ((finPerfList data assets i).mergeSort finPerfDesc)

/-- The `ranks` array: one rank map per clean-series date index. -/
def ranksList (data : List Observation) (assets : List String) :
    List (String → Option ℕ) :=
  (List.range data.length).map (ranksAt data assets)

/-- The processed model returned by `DataProcessor.process`. -/
structure ProcessedModel where
  dates : List String
  prices : List Observation
  rebased : String → Option (List JsNum)
  cumRet : String → Option (List JsNum)
  relative : String → Option (List JsNum)
  monthlyReturns : MonthlyReturns
  zScores : String → Option (List (Option ℝ))
  ranks : List (String → Option ℕ)
  baseAsset : String

/-- The three observable outcomes of `DataProcessor.process`: the
explicit `null` for an empty raw series, a thrown `TypeError` (reading
`cleanData[0]` when the clean series is empty while at least one asset
is requested), or the processed model. -/
inductive ProcessResult where
  | absent
  | crash
  | ok (m : ProcessedModel)

/-- The record `DataProcessor.process` returns once the clean series is
in hand. -/
noncomputable def assembleModel (cleanData : List Observation)
    (assets : List String) : ProcessedModel :=
  { dates := cleanData.map (fun d => d.date)
    prices := cleanData
    rebased := buildObj assets (rebasedSeries cleanData)
    cumRet := buildObj assets (cumRetSeries cleanData)
    relative := buildObj assets (relativeSeries cleanData assets)
    monthlyReturns := calculateMonthlyReturns cleanData assets
    zScores := calculateRollingZScore cleanData assets 20
    ranks := ranksList cleanData assets
    baseAsset := assets.headD "" }

/-- `DataProcessor.process`: `null` when the raw series is empty;
otherwise forward-fill, and crash if `cleanData[0].prices[...]` is read
on an empty clean series (which happens exactly when some asset is
requested); otherwise assemble the model. -/
noncomputable def process (rawData : List Observation)
    (assets : List String) : ProcessResult :=
  if rawData.length = 0 then ProcessResult.absent
  else
    let cleanData := forwardFill rawData assets
    if cleanData.isEmpty ∧ assets ≠ [] then ProcessResult.crash
    else ProcessResult.ok (assembleModel cleanData assets)

/-- The error taxonomy surfaced by `app.run` that the modelled claims
mention. -/
inductive AppError where
  | insufficientAssets
  | noData

/-- The data path of `app.run` after input parsing (the text field is
split on commas, trimmed, uppercased and blank entries filtered before
this point): reject fewer than two symbols before the fetch happens
(`fetchResult`, the awaited raw series, is a parameter precisely so
that the rejection can be shown independent of it), reject an empty raw
series, then process. -/
noncomputable def runPipeline (assets : List String)
    (fetchResult : List Observation) : Except AppError ProcessResult :=
  if assets.length < 2 then Except.error AppError.insufficientAssets
  else if fetchResult.length = 0 then Except.error AppError.noData
  else Except.ok (process fetchResult assets)

/-! ### Dictionary lookup lemmas -/

theorem foldl_updVal_lookup {β : Type} (assets : List String)
    (f : String → Option β) (init : String → Option β) (x : String) :
    (assets.foldl (fun m a => updVal m a (f a)) init) x
      = if x ∈ assets then f x else init x := by
  induction assets generalizing init with
  | nil => simp
  | cons a rest ih =>
    simp only [List.foldl_cons, ih, List.mem_cons]
    by_cases hr : x ∈ rest
    · simp [hr]
    · by_cases hax : x = a
      · simp [hr, hax, updVal]
      · simp [hr, hax, updVal]

theorem buildObjOpt_mem {β : Type} {assets : List String}
    {f : String → Option β} {a : String} (ha : a ∈ assets) :
    buildObjOpt assets f a = f a := by
  simp [buildObjOpt, foldl_updVal_lookup, ha]

theorem buildObjOpt_not_mem {β : Type} {assets : List String}
    {f : String → Option β} {a : String} (ha : a ∉ assets) :
    buildObjOpt assets f a = none := by
  simp [buildObjOpt, foldl_updVal_lookup, ha]

theorem buildObj_mem {β : Type} {assets : List String} {f : String → β}
    {a : String} (ha : a ∈ assets) :
    buildObj assets f a = some (f a) := by
  simp [buildObj, buildObjOpt_mem ha]

theorem buildObj_not_mem {β : Type} {assets : List String} {f : String → β}
    {a : String} (ha : a ∉ assets) :
    buildObj assets f a = none := by
  simp [buildObj, buildObjOpt_not_mem ha]

/-! ### Claim C1: fiat-provider normalization -/

/-- Claim C1 counterexample input: the fiat payload reports a present
rate of `0` for EUR on 2023-01-01. -/
def cxFiatData : List (String × (String → Option ℚ)) :=
  [("2023-01-01", fun c => if c = "EUR" then some 0 else none)]

/-- Claim C1, as stated, is false: a rate that is present but equal to
`0` is falsy in the JS test `rates[asset]`, so the code assigns an
absent price where the claim demands the price `1 / rate`. -/
theorem claim_c1_counterexample :
    (processFiatResponse cxFiatData ["USD", "EUR"] "USD").map
        (fun obs => (obs.date, obs.prices "USD", obs.prices "EUR"))
      = [("2023-01-01", some 1, none)]
    ∧ fiatRates cxFiatData "2023-01-01" "EUR" = some 0
    ∧ (none : Option ℚ) ≠ some (1 / 0) := by
  refine ⟨?_, rfl, by decide⟩
  have : processFiatResponse cxFiatData ["USD", "EUR"] "USD"
      = [Observation.mk "2023-01-01"
          (buildObjOpt ["USD", "EUR"] (fun asset =>
            if asset = "USD" then some 1
            else
              match fiatRates cxFiatData "2023-01-01" asset with
              | some r => if r = 0 then none else some (1 / r)
              | none => none))] := by
    simp [processFiatResponse, cxFiatData]
  rw [this]
  simp only [List.map_cons, List.map_nil, List.cons.injEq, and_true,
    Prod.mk.injEq]
  refine ⟨trivial, ?_, ?_⟩
  · rw [buildObjOpt_mem (by decide)]
    rfl
  · rw [buildObjOpt_mem (by decide)]
    rfl

/-- Claim C1 (amended): for reference currency USD, every observation
produced by the fiat processor assigns price `1.0` to USD, price
`1 / rate` to every requested asset whose rate is present *and nonzero*
in that date's rate set, and an absent price to every requested asset
whose rate is missing *or zero* (a zero rate is falsy in JS and is
treated as missing). -/
theorem claim_c1 (data : List (String × (String → Option ℚ)))
    (assets : List String) (obs : Observation)
    (h : obs ∈ processFiatResponse data assets "USD")
    (a : String) (ha : a ∈ assets) :
    (a = "USD" → obs.prices a = some 1)
    ∧ (a ≠ "USD" → ∀ r : ℚ, fiatRates data obs.date a = some r → r ≠ 0 →
        obs.prices a = some (1 / r))
    ∧ (a ≠ "USD" → fiatRates data obs.date a = some 0 →
        obs.prices a = none)
    ∧ (a ≠ "USD" → fiatRates data obs.date a = none →
        obs.prices a = none) := by
  simp only [processFiatResponse, List.mem_map] at h
  obtain ⟨d, -, rfl⟩ := h
  simp only [buildObjOpt_mem ha]
  refine ⟨fun h1 => by simp [h1], fun h1 r hr hr0 => ?_, fun h1 hr => ?_,
    fun h1 hr => ?_⟩
  · simp [h1, hr, hr0]
  · simp [h1, hr]
  · simp [h1, hr]

/-- Claim C1 witness input: the spec's scenario payload
`{rates: {"2023-01-01": {"EUR": 0.9}}}`. -/
def exFiatData : List (String × (String → Option ℚ)) :=
  [("2023-01-01", fun c => if c = "EUR" then some (9 / 10) else none)]

/-- The single observation the fiat processor produces from
`exFiatData`. -/
def exFiatObs : Observation :=
  Observation.mk "2023-01-01"
    (buildObjOpt ["USD", "EUR"] (fun asset =>
      if asset = "USD" then some 1
      else
        match fiatRates exFiatData "2023-01-01" asset with
        | some r => if r = 0 then none else some (1 / r)
        | none => none))

/-- Claim C1 witness: on the spec's scenario the processed observation
is `{date: "2023-01-01", prices: {USD: 1.0, EUR: 1/0.9}}`. -/
theorem claim_c1_witness :
    exFiatObs ∈ processFiatResponse exFiatData ["USD", "EUR"] "USD"
    ∧ exFiatObs.date = "2023-01-01"
    ∧ exFiatObs.prices "USD" = some 1
    ∧ exFiatObs.prices "EUR" = some (1 / (9 / 10)) := by
  have hmem : exFiatObs ∈ processFiatResponse exFiatData ["USD", "EUR"] "USD" := by
    have : processFiatResponse exFiatData ["USD", "EUR"] "USD" = [exFiatObs] := by
      simp [processFiatResponse, exFiatData, exFiatObs]
    rw [this]
    exact List.mem_singleton.mpr rfl
  have hdate : exFiatObs.date = "2023-01-01" := rfl
  have h := claim_c1 exFiatData ["USD", "EUR"] exFiatObs hmem
  refine ⟨hmem, hdate, (h "USD" (by decide)).1 rfl, ?_⟩
  refine (h "EUR" (by decide)).2.1 (by decide) (9 / 10) ?_ (by norm_num)
  rw [hdate]
  rfl

/-! ### Claim C5: forward-fill idempotence -/

theorem fillRow_snd_of_allSome (assets : List String)
    (lk ps : String → Option ℚ) (h : ∀ a ∈ assets, (ps a).isSome) :
    (assets.foldl
      (fun st a =>
        match st.2 a with
        | some v => (updVal st.1 a (some v), st.2)
        | none => (st.1, updVal st.2 a (st.1 a)))
      (lk, ps)).2 = ps := by
  induction assets generalizing lk with
  | nil => rfl
  | cons a rest ih =>
    have ha : (ps a).isSome := h a (List.mem_cons_self a rest)
    obtain ⟨v, hv⟩ := Option.isSome_iff_exists.mp ha
    simp only [List.foldl_cons, hv]
    exact ih _ (fun b hb => h b (List.mem_cons_of_mem a hb))

theorem fillRow_snd_eq (assets : List String) (lk : String → Option ℚ)
    (row : Observation) (h : ∀ a ∈ assets, (row.prices a).isSome) :
    (fillRow assets lk row).2 = row.prices :=
  fillRow_snd_of_allSome assets lk row.prices h

theorem fillScan_of_clean (assets : List String)
    (data : List Observation)
    (h : ∀ row ∈ data, ∀ a ∈ assets, (row.prices a).isSome) :
    ∀ lk, fillScan assets lk data = data := by
  induction data with
  | nil => intro lk; rfl
  | cons row rest ih =>
    intro lk
    have hrow := h row (List.mem_cons_self row rest)
    simp only [fillScan]
    rw [fillRow_snd_eq assets lk row hrow]
    rw [ih (fun r hr => h r (List.mem_cons_of_mem row hr))]

theorem forwardFill_allSome (data : List Observation)
    (assets : List String) :
    ∀ row ∈ forwardFill data assets, ∀ a ∈ assets,
      (row.prices a).isSome := by
  intro row hrow a ha
  have := List.of_mem_filter hrow
  exact List.all_eq_true.mp this a ha

/-- Claim C5: forward-fill is idempotent — re-running
`DataProcessor._forwardFill` on a series it already produced returns
that series unchanged (same dates in the same order, same prices). -/
theorem claim_c5 (data : List Observation) (assets : List String) :
    forwardFill (forwardFill data assets) assets
      = forwardFill data assets := by
  have hclean := forwardFill_allSome data assets
  show (fillScan assets emptyPrices (forwardFill data assets)).filter _
      = forwardFill data assets
  rw [fillScan_of_clean assets (forwardFill data assets) hclean emptyPrices]
  apply List.filter_eq_self.mpr
  intro row hrow
  exact List.all_eq_true.mpr (hclean row hrow)

/-! ### Claim C10: non-empty raw series emptied by forward-fill -/

/-- Claim C10 input: one observation, with asset `B` absent on every
date, so forward-fill drops every row. -/
def cxRawMissing : List Observation :=
  [Observation.mk "2023-01-01" (fun x => if x = "A" then some 1 else none)]

/-- Claim C10: on a non-empty raw series in which a requested asset is
absent on every date, forward-fill drops every row; `process` then
neither returns the explicit absent result nor a model — it reads the
first element of the empty clean series and fails, because the
absent-result branch only tests the raw series for zero observations. -/
theorem claim_c10 :
    cxRawMissing.length ≠ 0
    ∧ (∀ row ∈ cxRawMissing, row.prices "B" = none)
    ∧ forwardFill cxRawMissing ["A", "B"] = []
    ∧ process cxRawMissing ["A", "B"] = ProcessResult.crash := by
  refine ⟨by decide, ?_, rfl, rfl⟩
  intro row hrow
  rw [List.mem_singleton.mp hrow]
  rfl

/-! ### Inversion of a successful `process` run -/

theorem process_ok_inv {raw : List Observation} {assets : List String}
    {m : ProcessedModel} (h : process raw assets = ProcessResult.ok m) :
    m = assembleModel (forwardFill raw assets) assets
    ∧ raw.length ≠ 0
    ∧ ¬((forwardFill raw assets).isEmpty ∧ assets ≠ []) := by
  unfold process at h
  by_cases h0 : raw.length = 0
  · simp [h0] at h
  · by_cases h1 : (forwardFill raw assets).isEmpty ∧ assets ≠ []
    · simp [h0, h1] at h
    · simp only [h0, if_false, h1] at h
      exact ⟨(ProcessResult.ok.injEq _ _ ▸ h).symm, h0, h1⟩

theorem process_ok_clean_ne {raw : List Observation} {assets : List String}
    {m : ProcessedModel} (h : process raw assets = ProcessResult.ok m)
    (hne : assets ≠ []) : forwardFill raw assets ≠ [] := by
  intro hempty
  exact (process_ok_inv h).2.2 ⟨by simp [hempty], hne⟩

/-! ### Claim C9: insufficient-assets validation precedes fetching -/

/-- Claim C9: a request with fewer than two asset symbols fails with
the insufficient-assets error, and does so whatever the fetch would
have returned — the rejection happens before any fetch or network call
is attempted. -/
theorem claim_c9 (assets : List String) (fetchResult : List Observation)
    (h : assets.length < 2) :
    runPipeline assets fetchResult
      = Except.error AppError.insufficientAssets := by
  simp [runPipeline, h]

/-- Claim C9 witness: requesting `["USD"]` alone is rejected, for every
possible fetch outcome (shown here on two different ones). -/
theorem claim_c9_witness :
    (["USD"] : List String).length < 2
    ∧ runPipeline ["USD"] [] = Except.error AppError.insufficientAssets
    ∧ runPipeline ["USD"] cxRawMissing
      = Except.error AppError.insufficientAssets :=
  ⟨by decide, claim_c9 ["USD"] [] (by decide),
    claim_c9 ["USD"] cxRawMissing (by decide)⟩

/-! ### Claims C3 and C6: relative strength, rebasing, cumulative return -/

theorem headD_mem {α : Type} {l : List α} (d : α) (h : l ≠ []) :
    l.headD d ∈ l := by
  cases l with
  | nil => exact absurd rfl h
  | cons a t => exact List.mem_cons_self a t

theorem jsDiv_of_ne (a b : ℚ) (h : b ≠ 0) :
    jsDiv a b = JsNum.fin (a / b) := by
  simp [jsDiv, h]

theorem rebasedSeries_fin (data : List Observation) (a : String)
    (h0 : startPriceOf data a ≠ 0) :
    rebasedSeries data a = data.map (fun row =>
      JsNum.fin ((row.prices a).getD 0 / startPriceOf data a * 100)) := by
  unfold rebasedSeries
  apply List.map_congr_left
  intro row _
  rw [jsDiv_of_ne _ _ h0]
  rfl

theorem cumRetSeries_fin (data : List Observation) (a : String)
    (h0 : startPriceOf data a ≠ 0) :
    cumRetSeries data a = data.map (fun row =>
      JsNum.fin ((row.prices a).getD 0 / startPriceOf data a - 1)) := by
  unfold cumRetSeries
  apply List.map_congr_left
  intro row _
  rw [jsDiv_of_ne _ _ h0]
  rfl

theorem rebasedSeries_eq_map_fin (data : List Observation) (a : String)
    (h0 : startPriceOf data a ≠ 0) :
    rebasedSeries data a = (finRebased data a).map JsNum.fin := by
  rw [rebasedSeries_fin data a h0, finRebased, List.map_map]
  rfl

theorem getD_map_of_lt {α β : Type} (l : List α) (f : α → β) (d : β)
    {i : ℕ} (hi : i < l.length) :
    (l.map f).getD i d = f l[i] := by
  rw [List.getD_eq_getElem?_getD, List.getElem?_map,
    List.getElem?_eq_getElem hi]
  rfl

theorem cumRetSeries_getD_fin (data : List Observation) (a : String)
    (h0 : startPriceOf data a ≠ 0) {t : ℕ} (ht : t < data.length) :
    (cumRetSeries data a).getD t JsNum.nan
      = JsNum.fin ((data[t].prices a).getD 0 / startPriceOf data a - 1) := by
  rw [cumRetSeries_fin data a h0]
  exact getD_map_of_lt data _ JsNum.nan ht

theorem relativeSeries_getElem? (data : List Observation)
    (assets : List String) (a : String) {t : ℕ} (ht : t < data.length) :
    (relativeSeries data assets a)[t]?
      = some (jsSub ((cumRetSeries data a).getD t JsNum.nan)
          ((cumRetSeries data (assets.headD "")).getD t JsNum.nan)) := by
  simp [relativeSeries, List.getElem?_map, List.getElem?_range, ht]

/-- Claim C3 counterexample input: the base asset `A` has start price
`0` while `B` is a normal asset, so `process` succeeds and the base
asset's cumulative return is the JS value `0/0 - 1 = NaN`. -/
def cxRawZeroPair : List Observation :=
  [Observation.mk "2023-01-01"
    (fun x => if x = "A" then some 0 else if x = "B" then some 1 else none)]

/-- Claim C3, as stated, is false: in the processed model of a run
whose base asset has start price `0`, the base asset's relative value
is the JS difference `NaN - NaN = NaN`, not `0`. -/
theorem claim_c3_counterexample :
    ∃ m, process cxRawZeroPair ["A", "B"] = ProcessResult.ok m
    ∧ m.baseAsset = "A"
    ∧ m.dates = ["2023-01-01"]
    ∧ m.relative "A" = some [JsNum.nan]
    ∧ JsNum.nan ≠ JsNum.fin 0 := by
  have hok : process cxRawZeroPair ["A", "B"]
      = ProcessResult.ok (assembleModel
          (forwardFill cxRawZeroPair ["A", "B"]) ["A", "B"]) := rfl
  refine ⟨_, hok, rfl, rfl, ?_, by simp⟩
  show buildObj ["A", "B"]
      (relativeSeries (forwardFill cxRawZeroPair ["A", "B"]) ["A", "B"]) "A"
    = some [JsNum.nan]
  rw [buildObj_mem (by decide)]
  rfl

/-- Claim C3 (amended): in every processed model the base asset is the
first requested symbol and every asset's relative value at every index
is the JS difference of its cumulative return and the base asset's;
the base asset's own relative value is `0` at every index *provided
the base asset's start price is nonzero* (with a zero start price the
code produces `NaN` instead). -/
theorem claim_c3 (raw : List Observation) (assets : List String)
    (m : ProcessedModel) (h : process raw assets = ProcessResult.ok m)
    (hne : assets ≠ []) :
    m.baseAsset = assets.headD ""
    ∧ (∀ a ∈ assets, ∃ ra ca cb : List JsNum,
        m.relative a = some ra ∧ m.cumRet a = some ca
        ∧ m.cumRet m.baseAsset = some cb
        ∧ ∀ t, t < m.dates.length →
            ra[t]? = some (jsSub (ca.getD t JsNum.nan)
              (cb.getD t JsNum.nan)))
    ∧ (startPriceOf (forwardFill raw assets) (assets.headD "") ≠ 0 →
        ∀ t, t < m.dates.length →
          ∃ rb : List JsNum, m.relative m.baseAsset = some rb
            ∧ rb[t]? = some (JsNum.fin 0)) := by
  obtain ⟨rfl, -, -⟩ := process_ok_inv h
  have hbase : (assets.headD "") ∈ assets := headD_mem "" hne
  refine ⟨rfl, fun a ha => ?_, fun h0 t ht => ?_⟩
  · refine ⟨relativeSeries (forwardFill raw assets) assets a,
      cumRetSeries (forwardFill raw assets) a,
      cumRetSeries (forwardFill raw assets) (assets.headD ""),
      buildObj_mem ha, buildObj_mem ha, buildObj_mem hbase, fun t ht => ?_⟩
    have ht' : t < (forwardFill raw assets).length := by
      simpa [assembleModel] using ht
    exact relativeSeries_getElem? (forwardFill raw assets) assets a ht'
  · refine ⟨relativeSeries (forwardFill raw assets) assets (assets.headD ""),
      buildObj_mem hbase, ?_⟩
    have ht' : t < (forwardFill raw assets).length := by
      simpa [assembleModel] using ht
    rw [relativeSeries_getElem? (forwardFill raw assets) assets _ ht']
    rw [cumRetSeries_getD_fin (forwardFill raw assets) _ h0 ht']
    simp [jsSub]

/-- Claim C3 witness input: one observation carrying both assets with
nonzero prices. -/
def exRaw : List Observation :=
  [Observation.mk "2023-01-01"
    (fun x => if x = "A" then some 2 else if x = "B" then some 4 else none)]

/-- Claim C3 witness: on a concrete successful run with a nonzero base
start price the base asset is `"A"` and its relative strength at index
0 is the finite JS value `0`. -/
theorem claim_c3_witness :
    ∃ m, process exRaw ["A", "B"] = ProcessResult.ok m
    ∧ m.baseAsset = "A"
    ∧ startPriceOf (forwardFill exRaw ["A", "B"]) "A" ≠ 0
    ∧ ∃ rb : List JsNum, m.relative m.baseAsset = some rb
      ∧ rb[0]? = some (JsNum.fin 0) := by
  have hok : process exRaw ["A", "B"]
      = ProcessResult.ok (assembleModel (forwardFill exRaw ["A", "B"])
          ["A", "B"]) := rfl
  have h0 : startPriceOf (forwardFill exRaw ["A", "B"]) "A" ≠ 0 := by
    have hv : startPriceOf (forwardFill exRaw ["A", "B"]) "A" = 2 := rfl
    rw [hv]
    norm_num
  have h := claim_c3 exRaw ["A", "B"] _ hok (by decide)
  exact ⟨_, hok, h.1, h0, h.2.2 h0 0 (by decide)⟩

/-- Claim C6 counterexample input: a one-row series whose only asset
has price `0`, so the start price is `0`. -/
def cxRawZero : List Observation :=
  [Observation.mk "2023-01-01" (fun x => if x = "A" then some 0 else none)]

/-- Claim C6, as stated, is false: on a non-empty clean series whose
start price is `0` the code computes `0/0 = NaN`, so the rebased
series starts at `NaN`, not `100`, and the cumulative-return series
starts at `NaN`, not `0`. -/
theorem claim_c6_counterexample :
    ∃ m, process cxRawZero ["A"] = ProcessResult.ok m
    ∧ m.dates = ["2023-01-01"]
    ∧ m.rebased "A" = some [JsNum.nan]
    ∧ m.cumRet "A" = some [JsNum.nan]
    ∧ JsNum.nan ≠ JsNum.fin 100
    ∧ JsNum.nan ≠ JsNum.fin 0 := by
  have hok : process cxRawZero ["A"]
      = ProcessResult.ok (assembleModel (forwardFill cxRawZero ["A"])
          ["A"]) := rfl
  refine ⟨_, hok, rfl, ?_, ?_, by simp, by simp⟩
  · show buildObj ["A"] (rebasedSeries (forwardFill cxRawZero ["A"])) "A"
      = some [JsNum.nan]
    rw [buildObj_mem (by decide)]
    rfl
  · show buildObj ["A"] (cumRetSeries (forwardFill cxRawZero ["A"])) "A"
      = some [JsNum.nan]
    rw [buildObj_mem (by decide)]
    rfl

/-- Claim C6 (amended): for every successful run and every requested
asset *whose clean-series start price is nonzero*, the rebased series
starts at exactly `100` and the cumulative-return series starts at
exactly `0`, with the finite values
`rebased[t] = price[t] / price[0] * 100` and
`cumRet[t] = price[t] / price[0] - 1` at every index. -/
theorem claim_c6 (raw : List Observation) (assets : List String)
    (m : ProcessedModel) (h : process raw assets = ProcessResult.ok m)
    (a : String) (ha : a ∈ assets)
    (h0 : startPriceOf (forwardFill raw assets) a ≠ 0) :
    ∃ rl cl : List JsNum, m.rebased a = some rl ∧ m.cumRet a = some cl
    ∧ rl[0]? = some (JsNum.fin 100) ∧ cl[0]? = some (JsNum.fin 0)
    ∧ (∀ t : ℕ, rl[t]? = (forwardFill raw assets)[t]?.map
        (fun (row : Observation) => JsNum.fin ((row.prices a).getD 0
          / startPriceOf (forwardFill raw assets) a * 100)))
    ∧ (∀ t : ℕ, cl[t]? = (forwardFill raw assets)[t]?.map
        (fun (row : Observation) => JsNum.fin ((row.prices a).getD 0
          / startPriceOf (forwardFill raw assets) a - 1))) := by
  obtain ⟨rfl, -, -⟩ := process_ok_inv h
  have hne : assets ≠ [] := by
    intro hc
    rw [hc] at ha
    exact absurd ha (List.not_mem_nil a)
  have hclean : forwardFill raw assets ≠ [] := process_ok_clean_ne h hne
  obtain ⟨c0, rest, hc0⟩ := List.exists_cons_of_ne_nil hclean
  have hstart : startPriceOf (forwardFill raw assets) a
      = (c0.prices a).getD 0 := by
    rw [startPriceOf, hc0]
    rfl
  have hrl : ∀ t : ℕ, (rebasedSeries (forwardFill raw assets) a)[t]?
      = (forwardFill raw assets)[t]?.map (fun (row : Observation) =>
        JsNum.fin ((row.prices a).getD 0
          / startPriceOf (forwardFill raw assets) a * 100)) := by
    intro t
    rw [rebasedSeries_fin (forwardFill raw assets) a h0, List.getElem?_map]
  have hcl : ∀ t : ℕ, (cumRetSeries (forwardFill raw assets) a)[t]?
      = (forwardFill raw assets)[t]?.map (fun (row : Observation) =>
        JsNum.fin ((row.prices a).getD 0
          / startPriceOf (forwardFill raw assets) a - 1)) := by
    intro t
    rw [cumRetSeries_fin (forwardFill raw assets) a h0, List.getElem?_map]
  refine ⟨rebasedSeries (forwardFill raw assets) a,
    cumRetSeries (forwardFill raw assets) a,
    buildObj_mem ha, buildObj_mem ha, ?_, ?_, hrl, hcl⟩
  · rw [hrl 0, hc0]
    have hs : startPriceOf (c0 :: rest) a = (c0.prices a).getD 0 := rfl
    rw [hstart] at h0
    simp [hs, div_self h0]
  · rw [hcl 0, hc0]
    have hs : startPriceOf (c0 :: rest) a = (c0.prices a).getD 0 := rfl
    rw [hstart] at h0
    simp [hs, div_self h0]

/-- Claim C6 witness: on the concrete run of `exRaw` asset `"B"` has a
nonzero start price and the derived series start at `100` and `0`. -/
theorem claim_c6_witness :
    ∃ m, process exRaw ["A", "B"] = ProcessResult.ok m
    ∧ ∃ rl cl : List JsNum, m.rebased "B" = some rl ∧ m.cumRet "B" = some cl
      ∧ rl[0]? = some (JsNum.fin 100) ∧ cl[0]? = some (JsNum.fin 0) := by
  have hok : process exRaw ["A", "B"]
      = ProcessResult.ok (assembleModel (forwardFill exRaw ["A", "B"])
          ["A", "B"]) := rfl
  have h0 : startPriceOf (forwardFill exRaw ["A", "B"]) "B" ≠ 0 := by
    have hv : startPriceOf (forwardFill exRaw ["A", "B"]) "B" = 4 := rfl
    rw [hv]
    norm_num
  obtain ⟨rl, cl, h1, h2, h3, h4, -, -⟩ :=
    claim_c6 exRaw ["A", "B"] _ hok "B" (by decide) h0
  exact ⟨_, hok, rl, cl, h1, h2, h3, h4⟩

/-! ### Claim C2: rolling z-score warm-up and formula -/

theorem zScoreSeries_getElem? (series : List ℚ) (window : ℕ) {i : ℕ}
    (hi : i < series.length) :
    (zScoreSeries series window)[i]?
      = some (if i < window * 2 then none
          else some (zFormula series i window)) := by
  simp [zScoreSeries, List.getElem?_map, List.getElem?_range, hi]

theorem trailSlice_length (series : List ℚ) {i w : ℕ} (hw : w ≤ i)
    (hi : i < series.length) :
    (trailSlice series i w).length = w := by
  simp only [trailSlice, List.length_take, List.length_drop]
  omega

/-- Claim C2: for every asset of a clean series of length at least 41
with window 20, the rolling z-score is null at indices `0..39` and
non-null from index 40 on; at each index `t ≥ 40` it equals
`(price[t] - mean) / (stddev or 1 if stddev == 0)` where mean and
population standard deviation are taken over the trailing 20 post-fill
prices (`slice = series[t-20..t-1]`, of length exactly 20, so the
code's division by the window equals division by the slice length). -/
theorem claim_c2 (data : List Observation) (assets : List String)
    (a : String) (ha : a ∈ assets)
    (hclean : ∀ row ∈ data, ∀ b ∈ assets, (row.prices b).isSome)
    (hlen : 41 ≤ data.length) :
    ∃ zs : List (Option ℝ),
      calculateRollingZScore data assets 20 a = some zs
      ∧ zs.length = data.length
      ∧ (∀ i, i < 40 → zs[i]? = some none)
      ∧ (∀ i, 40 ≤ i → i < data.length →
          (trailSlice (assetSeries data a) i 20).length = 20
          ∧ zs[i]? = some (some (zFormula (assetSeries data a) i 20))) := by
  have hserlen : (assetSeries data a).length = data.length := by
    simp [assetSeries]
  refine ⟨zScoreSeries (assetSeries data a) 20, buildObj_mem ha, ?_,
    fun i hi => ?_, fun i hi1 hi2 => ?_⟩
  · simp [zScoreSeries, hserlen]
  · have hi' : i < (assetSeries data a).length := by omega
    rw [zScoreSeries_getElem? (assetSeries data a) 20 hi']
    have : i < 20 * 2 := by omega
    simp [this]
  · have hi' : i < (assetSeries data a).length := by omega
    refine ⟨trailSlice_length (assetSeries data a) (by omega) hi', ?_⟩
    rw [zScoreSeries_getElem? (assetSeries data a) 20 hi']
    have : ¬ i < 20 * 2 := by omega
    simp [this]

/-- Claim C2 witness input: 41 clean observations of a single asset. -/
def exZRaw : List Observation :=
  (List.range 41).map (fun i =>
    Observation.mk "" (fun x => if x = "A" then some ((i : ℚ) + 1) else none))

/-- Claim C2 witness: on the 41-row clean series the z-score is null at
indices 0 and 39 and non-null at index 40. -/
theorem claim_c2_witness :
    ∃ zs : List (Option ℝ),
      calculateRollingZScore exZRaw ["A"] 20 "A" = some zs
      ∧ zs.length = 41
      ∧ zs[0]? = some none ∧ zs[39]? = some none
      ∧ ∃ z : ℝ, zs[40]? = some (some z) := by
  obtain ⟨zs, h1, h2, h3, h4⟩ :=
    claim_c2 exZRaw ["A"] "A" (by decide) (by decide) (by decide)
  have hlen : zs.length = 41 := by
    rw [h2]
    decide
  exact ⟨zs, h1, hlen, h3 0 (by decide), h3 39 (by decide),
    ⟨_, (h4 40 (by decide) (by decide)).2⟩⟩

/-! ### Claim C8: crypto partial-failure tolerance -/

theorem insertKline_fresh_foldl (tsToDate : Int → String) (asset : String)
    (ks : List Kline) :
    ∀ (m : List (String × (String → Option ℚ))),
      (ks.map (fun k => tsToDate k.openTime)).Nodup →
      (∀ k ∈ ks, tsToDate k.openTime ∉ m.map Prod.fst) →
      ks.foldl (insertKline tsToDate asset) m
        = m ++ ks.map (fun k =>
            (tsToDate k.openTime, updVal emptyPrices asset (some k.close))) := by
  induction ks with
  | nil => intro m _ _; simp
  | cons k rest ih =>
    intro m hnd hdisj
    rw [List.map_cons] at hnd
    obtain ⟨hhead, htail⟩ := List.nodup_cons.mp hnd
    have hk : tsToDate k.openTime ∉ m.map Prod.fst :=
      hdisj k (List.mem_cons_self k rest)
    have hstep : insertKline tsToDate asset m k
        = m ++ [(tsToDate k.openTime,
            updVal emptyPrices asset (some k.close))] := by
      simp [insertKline, hk]
    simp only [List.foldl_cons, hstep]
    rw [ih (m ++ [(tsToDate k.openTime, updVal emptyPrices asset (some k.close))])
      htail ?_]
    · simp
    · intro k' hk'
      simp only [List.map_append, List.mem_append, List.map_cons, List.map_nil]
      rintro (hin | hin)
      · exact hdisj k' (List.mem_cons_of_mem k hk') hin
      · have heq : tsToDate k'.openTime = tsToDate k.openTime := by simpa using hin
        exact hhead (heq ▸ List.mem_map_of_mem (fun k => tsToDate k.openTime) hk')

/-- The observation list the crypto merge produces for a single
successful asset whose candle dates are distinct. -/
def cryptoObsList (tsToDate : Int → String) (asset : String)
    (ks : List Kline) : List Observation :=
  ks.map (fun k => Observation.mk (tsToDate k.openTime)
    (updVal emptyPrices asset (some k.close)))

theorem processCrypto_two_assets (tsToDate : Int → String)
    (aFail aOk : String) (ks : List Kline)
    (hnd : (ks.map (fun k => tsToDate k.openTime)).Nodup)
    (results : List (String × List Kline))
    (hshape : results = [(aFail, []), (aOk, ks)]
      ∨ results = [(aOk, ks), (aFail, [])]) :
    processCryptoResponse tsToDate results
      = (cryptoObsList tsToDate aOk ks).mergeSort
          (fun a b => decide (a.date ≤ b.date)) := by
  have hfold : results.foldl
      (fun m r => r.2.foldl (insertKline tsToDate r.1) m) []
      = ks.map (fun k =>
          (tsToDate k.openTime, updVal emptyPrices aOk (some k.close))) := by
    rcases hshape with rfl | rfl
    · simp only [List.foldl_cons, List.foldl_nil]
      exact insertKline_fresh_foldl tsToDate aOk ks [] hnd (by simp)
    · simp only [List.foldl_cons, List.foldl_nil]
      rw [insertKline_fresh_foldl tsToDate aOk ks [] hnd (by simp)]
      simp
  show ((results.foldl (fun m r => r.2.foldl (insertKline tsToDate r.1) m)
      []).map (fun e => Observation.mk e.1 e.2)).mergeSort
      (fun a b => decide (a.date ≤ b.date))
    = (cryptoObsList tsToDate aOk ks).mergeSort
        (fun a b => decide (a.date ≤ b.date))
  rw [hfold, List.map_map]
  rfl

/-- Claim C8: when one crypto asset's request fails (yielding the empty
kline list) and another succeeds, the merged raw series contains
exactly the successful asset's candle dates sorted ascending, with the
failed asset's price absent on every date and the successful asset's
close price keyed by the calendar date of each candle's open
timestamp. -/
theorem claim_c8 (tsToDate : Int → String) (aFail aOk : String)
    (ks : List Kline) (hne : aFail ≠ aOk)
    (hnd : (ks.map (fun k => tsToDate k.openTime)).Nodup)
    (outcomes : List (String × Option (List Kline)))
    (hshape : outcomes = [(aFail, none), (aOk, some ks)]
      ∨ outcomes = [(aOk, some ks), (aFail, none)]) :
    ((fetchCryptoMerge tsToDate outcomes).map (fun o => o.date)).Perm
        (ks.map (fun k => tsToDate k.openTime))
    ∧ ((fetchCryptoMerge tsToDate outcomes).map (fun o => o.date)).Pairwise
        (fun a b => a ≤ b)
    ∧ (∀ obs ∈ fetchCryptoMerge tsToDate outcomes, obs.prices aFail = none)
    ∧ (∀ obs ∈ fetchCryptoMerge tsToDate outcomes, ∃ k ∈ ks,
        obs.date = tsToDate k.openTime ∧ obs.prices aOk = some k.close)
    ∧ (∀ k ∈ ks, ∃ obs ∈ fetchCryptoMerge tsToDate outcomes,
        obs.date = tsToDate k.openTime ∧ obs.prices aOk = some k.close) := by
  have hraw : fetchCryptoMerge tsToDate outcomes
      = (cryptoObsList tsToDate aOk ks).mergeSort
          (fun a b => decide (a.date ≤ b.date)) := by
    rcases hshape with rfl | rfl
    · exact processCrypto_two_assets tsToDate aFail aOk ks hnd _ (Or.inl rfl)
    · exact processCrypto_two_assets tsToDate aFail aOk ks hnd _ (Or.inr rfl)
  have hperm : (fetchCryptoMerge tsToDate outcomes).Perm
      (cryptoObsList tsToDate aOk ks) := by
    rw [hraw]
    exact List.mergeSort_perm _ _
  have hmem : ∀ obs, obs ∈ fetchCryptoMerge tsToDate outcomes ↔
      obs ∈ cryptoObsList tsToDate aOk ks := fun obs => hperm.mem_iff
  refine ⟨?_, ?_, ?_, ?_, ?_⟩
  · have := hperm.map (fun o => o.date)
    simpa [cryptoObsList, List.map_map, Function.comp] using this
  · have hs := @List.sorted_mergeSort _
      (fun a b : Observation => decide (a.date ≤ b.date))
      (fun a b c hab hbc => by
        simp only [decide_eq_true_eq] at hab hbc ⊢
        exact le_trans hab hbc)
      (fun a b => by
        simp only [Bool.or_eq_true, decide_eq_true_eq]
        exact le_total a.date b.date)
      (cryptoObsList tsToDate aOk ks)
    rw [hraw]
    rw [List.pairwise_map]
    exact hs.imp (fun h => by simpa using h)
  · intro obs hobs
    obtain ⟨k, -, rfl⟩ := List.mem_map.mp ((hmem obs).mp hobs)
    simp [updVal, emptyPrices, hne]
  · intro obs hobs
    obtain ⟨k, hk, rfl⟩ := List.mem_map.mp ((hmem obs).mp hobs)
    exact ⟨k, hk, rfl, by simp [updVal]⟩
  · intro k hk
    refine ⟨Observation.mk (tsToDate k.openTime)
      (updVal emptyPrices aOk (some k.close)), ?_, rfl, by simp [updVal]⟩
    exact (hmem _).mpr (List.mem_map_of_mem _ hk)

/-- Claim C8 witness inputs: a two-candle successful asset and an
abstract timestamp-to-date conversion. -/
def exTsToDate : Int → String :=
  fun t => if t = 0 then "2023-01-01" else "2023-01-02"

/-- Claim C8 witness klines: close 5 on the first day, 6 on the
second. -/
def exKlines : List Kline := [Kline.mk 0 5, Kline.mk 1 6]

/-- Claim C8 witness: asset `"X"` fails, asset `"Y"` succeeds with two
candles; the merged series carries no `"X"` price anywhere and `"Y"`'s
close on each candle date. -/
theorem claim_c8_witness :
    ("X" : String) ≠ "Y"
    ∧ (exKlines.map (fun k => exTsToDate k.openTime)).Nodup
    ∧ (∀ obs ∈ fetchCryptoMerge exTsToDate [("X", none), ("Y", some exKlines)],
        obs.prices "X" = none)
    ∧ (∀ k ∈ exKlines,
        ∃ obs ∈ fetchCryptoMerge exTsToDate [("X", none), ("Y", some exKlines)],
          obs.date = exTsToDate k.openTime ∧ obs.prices "Y" = some k.close) := by
  have h := claim_c8 exTsToDate "X" "Y" exKlines (by decide) (by decide)
    [("X", none), ("Y", some exKlines)] (Or.inl rfl)
  exact ⟨by decide, by decide, h.2.2.1, h.2.2.2.2⟩

/-! ### Claim C7: monthly-return matrix -/

/-- Distinct elements of a list in order of first appearance — the
insertion order of the month map's keys. -/
def firstAppearances (l : List String) : List String :=
  l.foldl (fun acc x => if x ∈ acc then acc else acc ++ [x]) []

/-- The distinct `YYYY-MM` months of a series in chronological order of
first appearance. -/
def monthsOf (data : List Observation) : List String :=
  firstAppearances (data.map monthKey)

theorem foldl_firstApp_mem (l : List String) :
    ∀ (acc : List String) (y : String),
      (y ∈ l.foldl (fun acc x => if x ∈ acc then acc else acc ++ [x]) acc)
        ↔ y ∈ acc ∨ y ∈ l := by
  induction l with
  | nil => intro acc y; simp
  | cons x t ih =>
    intro acc y
    simp only [List.foldl_cons]
    rw [ih]
    by_cases hx : x ∈ acc
    · simp only [hx, if_true, List.mem_cons]
      constructor
      · rintro (h | h)
        · exact Or.inl h
        · exact Or.inr (Or.inr h)
      · rintro (h | h | h)
        · exact Or.inl h
        · exact Or.inl (h ▸ hx)
        · exact Or.inr h
    · simp only [hx, if_false, List.mem_append, List.mem_singleton,
        List.mem_cons]
      tauto

theorem firstAppearances_mem (l : List String) (y : String) :
    y ∈ firstAppearances l ↔ y ∈ l := by
  rw [firstAppearances, foldl_firstApp_mem]
  simp

theorem filter_of_not_mem_monthsOf {data : List Observation} {mo : String}
    (h : mo ∉ monthsOf data) :
    data.filter (fun r => decide (monthKey r = mo)) = [] := by
  rw [List.filter_eq_nil_iff]
  intro r hr
  simp only [decide_eq_true_eq]
  intro heq
  exact h ((firstAppearances_mem _ _).mpr
    (heq ▸ List.mem_map_of_mem monthKey hr))

theorem monthGroups_spec (data : List Observation) :
    (monthGroups data).map Prod.fst = monthsOf data
    ∧ ∀ mo s e, (mo, s, e) ∈ monthGroups data →
        (data.filter (fun r => decide (monthKey r = mo))).head? = some s
        ∧ (data.filter (fun r => decide (monthKey r = mo))).getLast?
            = some e := by
  induction data using List.reverseRecOn with
  | nil =>
    refine ⟨by simp [monthGroups, monthsOf, firstAppearances], ?_⟩
    intro mo s e hmem
    simp [monthGroups] at hmem
  | append_singleton xs x ih =>
    obtain ⟨iha, ihb⟩ := ih
    have hg : monthGroups (xs ++ [x]) = monthStep (monthGroups xs) x := by
      simp [monthGroups, List.foldl_append]
    have hm : monthsOf (xs ++ [x])
        = (if monthKey x ∈ monthsOf xs then monthsOf xs
           else monthsOf xs ++ [monthKey x]) := by
      simp only [monthsOf, firstAppearances, List.map_append,
        List.foldl_append, List.map_cons, List.map_nil, List.foldl_cons,
        List.foldl_nil]
    by_cases hx : monthKey x ∈ monthsOf xs
    · have hkeys : monthKey x ∈ (monthGroups xs).map Prod.fst := by
        rw [iha]; exact hx
      have hstep : monthGroups (xs ++ [x])
          = (monthGroups xs).map (fun e =>
              if e.1 = monthKey x then (e.1, e.2.1, x) else e) := by
        rw [hg]; simp [monthStep, hkeys]
      constructor
      · rw [hstep, hm, if_pos hx, List.map_map, ← iha]
        apply List.map_congr_left
        intro e _
        by_cases he : e.1 = monthKey x <;> simp [he]
      · intro mo s e hmem
        rw [hstep] at hmem
        obtain ⟨⟨mo', s', e'⟩, hmem', hupd⟩ := List.mem_map.mp hmem
        by_cases he : mo' = monthKey x
        · rw [if_pos he] at hupd
          obtain ⟨ih1, -⟩ := ihb mo' s' e' hmem'
          simp only [Prod.mk.injEq] at hupd
          obtain ⟨rfl, rfl, rfl⟩ := hupd
          constructor
          · rw [List.filter_append, List.head?_append, ih1]
            rfl
          · rw [List.filter_append]
            have hfx : [x].filter (fun r => decide (monthKey r = mo')) = [x] := by
              simp [he]
            rw [hfx, List.getLast?_concat]
        · rw [if_neg he] at hupd
          obtain ⟨ih1, ih2⟩ := ihb mo' s' e' hmem'
          simp only [Prod.mk.injEq] at hupd
          obtain ⟨rfl, rfl, rfl⟩ := hupd
          have hne' : ¬ monthKey x = mo' := fun hh => he hh.symm
          have hfx : [x].filter (fun r => decide (monthKey r = mo')) = [] := by
            simp [hne']
          rw [List.filter_append, hfx, List.append_nil]
          exact ⟨ih1, ih2⟩
    · have hkeys : monthKey x ∉ (monthGroups xs).map Prod.fst := by
        rw [iha]; exact hx
      have hstep : monthGroups (xs ++ [x])
          = monthGroups xs ++ [(monthKey x, x, x)] := by
        rw [hg]; simp [monthStep, hkeys]
      constructor
      · rw [hstep, hm, if_neg hx, List.map_append, iha]
        simp
      · intro mo s e hmem
        rw [hstep, List.mem_append] at hmem
        rcases hmem with hmem | hmem
        · have hmo : mo ≠ monthKey x := by
            intro hc
            exact hkeys (hc ▸ List.mem_map_of_mem Prod.fst hmem)
          have hne' : ¬ monthKey x = mo := fun hh => hmo hh.symm
          have hfx : [x].filter (fun r => decide (monthKey r = mo)) = [] := by
            simp [hne']
          obtain ⟨ih1, ih2⟩ := ihb mo s e hmem
          rw [List.filter_append, hfx, List.append_nil]
          exact ⟨ih1, ih2⟩
        · simp only [List.mem_singleton, Prod.mk.injEq] at hmem
          obtain ⟨rfl, rfl, rfl⟩ := hmem
          rw [List.filter_append, filter_of_not_mem_monthsOf hx,
            List.nil_append]
          exact ⟨by simp, by simp⟩

/-- Claim C7: for every successful run the monthly-return matrix has
one row per requested asset (`z.length = y.length`), each row has one
entry per distinct `YYYY-MM` month of the clean series in chronological
order of first appearance, and the entry for month `mo` and asset `a`
equals `(endPrice - startPrice) / startPrice * 100` where the start and
end prices are taken from the first and last clean-series observations
of month `mo`. -/
theorem claim_c7 (raw : List Observation) (assets : List String)
    (m : ProcessedModel) (h : process raw assets = ProcessResult.ok m) :
    m.monthlyReturns.y = assets
    ∧ m.monthlyReturns.z.length = m.monthlyReturns.y.length
    ∧ m.monthlyReturns.x = monthsOf (forwardFill raw assets)
    ∧ (∀ row ∈ m.monthlyReturns.z, row.length = m.monthlyReturns.x.length)
    ∧ (∀ (i : ℕ) (a : String), assets[i]? = some a →
        ∀ (j : ℕ) (mo : String), m.monthlyReturns.x[j]? = some mo →
        ∃ s e : Observation,
          ((forwardFill raw assets).filter
            (fun r => decide (monthKey r = mo))).head? = some s
          ∧ ((forwardFill raw assets).filter
            (fun r => decide (monthKey r = mo))).getLast? = some e
          ∧ (m.monthlyReturns.z[i]?.bind (fun (row : List ℚ) => row[j]?))
              = some ((((e.prices a).getD 0 - (s.prices a).getD 0)
                  / (s.prices a).getD 0) * 100)) := by
  obtain ⟨rfl, -, -⟩ := process_ok_inv h
  obtain ⟨hA, hB⟩ := monthGroups_spec (forwardFill raw assets)
  refine ⟨rfl, by simp [assembleModel, calculateMonthlyReturns], hA, ?_, ?_⟩
  · intro row hrow
    obtain ⟨a, -, rfl⟩ := List.mem_map.mp hrow
    simp [assembleModel, calculateMonthlyReturns]
  · intro i a hia j mo hjmo
    have hz : (assembleModel (forwardFill raw assets) assets).monthlyReturns.z[i]?
        = some ((monthGroups (forwardFill raw assets)).map (fun e =>
            (((e.2.2.prices a).getD 0 - (e.2.1.prices a).getD 0)
              / (e.2.1.prices a).getD 0) * 100)) := by
      show (assets.map _)[i]? = _
      rw [List.getElem?_map, hia]
      rfl
    have hx : ((monthGroups (forwardFill raw assets)).map Prod.fst)[j]?
        = some mo := hjmo
    rw [List.getElem?_map] at hx
    obtain ⟨entry, hentry, hfst⟩ := Option.map_eq_some'.mp hx
    have hmem : entry ∈ monthGroups (forwardFill raw assets) :=
      List.getElem?_mem hentry
    obtain ⟨hhead, hlast⟩ := hB entry.1 entry.2.1 entry.2.2 hmem
    subst hfst
    refine ⟨entry.2.1, entry.2.2, hhead, hlast, ?_⟩
    rw [hz]
    simp only [Option.some_bind]
    rw [List.getElem?_map, hentry]
    rfl

/-- Claim C7 witness: on the concrete run of `exRaw` the matrix is
2 × 1 (two assets, one month `"2023-01"`) and the `"A"` entry is the
month's start/end return. -/
theorem claim_c7_witness :
    ∃ m, process exRaw ["A", "B"] = ProcessResult.ok m
    ∧ m.monthlyReturns.y = ["A", "B"]
    ∧ m.monthlyReturns.z.length = 2
    ∧ ∃ s e : Observation,
        ((forwardFill exRaw ["A", "B"]).filter
          (fun r => decide (monthKey r = "2023-01"))).head? = some s
        ∧ ((forwardFill exRaw ["A", "B"]).filter
          (fun r => decide (monthKey r = "2023-01"))).getLast? = some e
        ∧ (m.monthlyReturns.z[0]?.bind (fun (row : List ℚ) => row[0]?))
            = some ((((e.prices "A").getD 0 - (s.prices "A").getD 0)
                / (s.prices "A").getD 0) * 100) := by
  have hok : process exRaw ["A", "B"]
      = ProcessResult.ok (assembleModel (forwardFill exRaw ["A", "B"])
          ["A", "B"]) := rfl
  have h := claim_c7 exRaw ["A", "B"] _ hok
  refine ⟨_, hok, h.1, ?_, ?_⟩
  · rw [h.2.1, h.1]
    rfl
  · exact h.2.2.2.2 0 "A" (by decide) 0 "2023-01" (by decide)

/-! ### Claim C4: per-date rank maps -/

theorem rankFoldl_not_mem {β : Type} (l : List (ℕ × (String × β))) :
    ∀ (init : String → Option ℕ) (x : String),
      x ∉ l.map (fun p => p.2.1) →
      (l.foldl (fun m p => updVal m p.2.1 (some (p.1 + 1))) init) x
        = init x := by
  induction l with
  | nil => intro init x _; rfl
  | cons p rest ih =>
    intro init x hx
    simp only [List.map_cons, List.mem_cons, not_or] at hx
    simp only [List.foldl_cons]
    rw [ih _ x hx.2]
    simp [updVal, hx.1]

theorem rankFoldl_mem {β : Type} (l : List (ℕ × (String × β))) :
    ∀ (init : String → Option ℕ) (i : ℕ) (item : String × β),
      (l.map (fun p => p.2.1)).Nodup → (i, item) ∈ l →
      (l.foldl (fun m p => updVal m p.2.1 (some (p.1 + 1))) init) item.1
        = some (i + 1) := by
  induction l with
  | nil => intro init i item _ hmem; simp at hmem
  | cons q rest ih =>
    intro init i item hnd hmem
    simp only [List.map_cons, List.nodup_cons] at hnd
    obtain ⟨hq, hrest⟩ := hnd
    simp only [List.foldl_cons]
    rcases List.mem_cons.mp hmem with heq | hmem2
    · rw [← heq] at hq ⊢
      rw [rankFoldl_not_mem rest _ item.1 hq]
      simp [updVal]
    · exact ih _ i item hrest hmem2

theorem finPerfDesc_trans (a b c : String × ℚ) (hab : finPerfDesc a b)
    (hbc : finPerfDesc b c) : finPerfDesc a c := by
  simp only [finPerfDesc, decide_eq_true_eq] at hab hbc ⊢
  exact le_trans hbc hab

theorem finPerfDesc_total (a b : String × ℚ) :
    finPerfDesc a b || finPerfDesc b a := by
  simp only [finPerfDesc, Bool.or_eq_true, decide_eq_true_eq]
  exact le_total b.2 a.2

theorem pair_sublist_getElem? {α : Type} {u v : α} :
    ∀ {l : List α}, List.Sublist [u, v] l →
      ∃ i j : ℕ, i < j ∧ l[i]? = some u ∧ l[j]? = some v := by
  intro l h
  induction l with
  | nil => cases h
  | cons x t ih =>
    cases h with
    | cons _ h2 =>
      obtain ⟨i, j, hij, h1, h2⟩ := ih h2
      exact ⟨i + 1, j + 1, by omega, by simpa using h1, by simpa using h2⟩
    | cons₂ _ h2 =>
      have hv : v ∈ t := List.singleton_sublist.mp h2
      obtain ⟨j, hj⟩ := List.mem_iff_getElem?.mp hv
      exact ⟨0, j + 1, by omega, by simp, by simpa using hj⟩

theorem map_pair_fst {β : Type} (assets : List String) (f : String → β) :
    (assets.map (fun a => (a, f a))).map (fun p => p.1) = assets := by
  rw [List.map_map]
  have h : ∀ a ∈ assets,
      ((fun p : String × β => p.1) ∘ (fun a => (a, f a))) a = a :=
    fun a _ => rfl
  rw [List.map_congr_left h]
  simp

theorem sorted_keys_nodup {β : Type} (l : List (String × β))
    (le : (String × β) → (String × β) → Bool)
    (hnd : (l.map (fun p => p.1)).Nodup) :
    ((l.mergeSort le).enum.map (fun p => p.2.1)).Nodup := by
  have hperm : ((l.mergeSort le).map (fun p => p.1)).Perm
      (l.map (fun p => p.1)) := (List.mergeSort_perm l le).map _
  have hkeys : ((l.mergeSort le).map (fun p => p.1)).Nodup :=
    hperm.nodup_iff.mpr hnd
  have henum : (l.mergeSort le).enum.map (fun p => p.2.1)
      = (l.mergeSort le).map (fun p => p.1) := by
    rw [show (fun p : ℕ × (String × β) => p.2.1)
        = (fun q : String × β => q.1) ∘ Prod.snd from rfl]
    rw [← List.map_map, List.enum_map_snd]
  rw [henum]
  exact hkeys

theorem rankMapOf_lookup {β : Type} (l : List (String × β))
    (le : (String × β) → (String × β) → Bool)
    (hnd : (l.map (fun p => p.1)).Nodup) (idx : ℕ) (item : String × β)
    (hidx : (l.mergeSort le)[idx]? = some item) :
    rankMapOf (l.mergeSort le) item.1 = some (idx + 1) := by
  have hm : (idx, item) ∈ (l.mergeSort le).enum := by
    have : (l.mergeSort le).enum[idx]? = some (idx, item) := by
      simp [List.getElem?_enum, hidx]
    exact List.getElem?_mem this
  exact rankFoldl_mem _ _ idx item (sorted_keys_nodup l le hnd) hm

theorem rankMapOf_perm {β : Type} (l : List (String × β))
    (le : (String × β) → (String × β) → Bool)
    (hnd : (l.map (fun p => p.1)).Nodup) :
    ((l.map (fun p => p.1)).map (rankMapOf (l.mergeSort le))).Perm
      ((List.range l.length).map (fun k => some (k + 1))) := by
  have hperm : ((l.mergeSort le).map (fun p => p.1)).Perm
      (l.map (fun p => p.1)) := (List.mergeSort_perm l le).map _
  have henum_nd := sorted_keys_nodup l le hnd
  have henum : (l.mergeSort le).enum.map (fun p => p.2.1)
      = (l.mergeSort le).map (fun p => p.1) := by
    rw [show (fun p : ℕ × (String × β) => p.2.1)
        = (fun q : String × β => q.1) ∘ Prod.snd from rfl]
    rw [← List.map_map, List.enum_map_snd]
  have hmapeq : ((l.mergeSort le).map (fun p => p.1)).map
      (rankMapOf (l.mergeSort le))
      = (List.range l.length).map (fun k => some (k + 1)) := by
    rw [← henum, List.map_map]
    have hcong : (l.mergeSort le).enum.map
        ((rankMapOf (l.mergeSort le)) ∘ (fun p => p.2.1))
        = (l.mergeSort le).enum.map (fun p => some (p.1 + 1)) := by
      apply List.map_congr_left
      intro p hp
      exact rankFoldl_mem _ _ p.1 p.2 henum_nd (by simpa using hp)
    rw [hcong]
    rw [show (fun p : ℕ × (String × β) => some (p.1 + 1))
        = (fun k : ℕ => some (k + 1)) ∘ Prod.fst from rfl]
    rw [← List.map_map, List.enum_map_fst]
    rw [List.length_mergeSort]
  rw [← hmapeq]
  exact hperm.symm.map _

theorem finRanksAt_spec (data : List Observation) (assets : List String)
    (i : ℕ) (hnd : assets.Nodup) :
    (∀ a ∈ assets, finRanksAt data assets i a = some 1 →
        ∀ b ∈ assets, (finRebased data b).getD i 0
          ≤ (finRebased data a).getD i 0)
    ∧ (∀ a b : String, List.Sublist [a, b] assets →
        (finRebased data a).getD i 0 = (finRebased data b).getD i 0 →
        ∃ ra rb : ℕ, finRanksAt data assets i a = some ra
          ∧ finRanksAt data assets i b = some rb ∧ ra < rb) := by
  have hkeys : (finPerfList data assets i).map (fun p => p.1) = assets := by
    unfold finPerfList
    exact map_pair_fst assets _
  have hndk : ((finPerfList data assets i).map (fun p => p.1)).Nodup := by
    rw [hkeys]
    exact hnd
  constructor
  · intro a ha h1 b hb
    have hamem : (a, (finRebased data a).getD i 0)
        ∈ (finPerfList data assets i).mergeSort finPerfDesc :=
      List.mem_mergeSort.mpr (List.mem_map_of_mem _ ha)
    obtain ⟨idx, hidx⟩ := List.mem_iff_getElem?.mp hamem
    have hrank : finRanksAt data assets i a = some (idx + 1) :=
      rankMapOf_lookup _ finPerfDesc hndk idx _ hidx
    have hidx0 : idx = 0 := by
      rw [h1] at hrank
      have := Option.some.inj hrank
      omega
    subst hidx0
    have hbmem : (b, (finRebased data b).getD i 0)
        ∈ (finPerfList data assets i).mergeSort finPerfDesc :=
      List.mem_mergeSort.mpr (List.mem_map_of_mem _ hb)
    obtain ⟨idxb, hidxb⟩ := List.mem_iff_getElem?.mp hbmem
    have hpw : ((finPerfList data assets i).mergeSort finPerfDesc).Pairwise
        (fun x y => finPerfDesc x y) :=
      List.sorted_mergeSort finPerfDesc_trans finPerfDesc_total _
    obtain ⟨hlt0, hget0⟩ := List.getElem?_eq_some_iff.mp hidx
    obtain ⟨hltb, hgetb⟩ := List.getElem?_eq_some_iff.mp hidxb
    rcases Nat.eq_zero_or_pos idxb with hz | hpos
    · subst hz
      have heq2 : (a, (finRebased data a).getD i 0)
          = (b, (finRebased data b).getD i 0) := by
        rw [← hget0, ← hgetb]
      have := (Prod.mk.injEq _ _ _ _).mp heq2
      exact le_of_eq this.2.symm
    · have hrel := List.pairwise_iff_getElem.mp hpw 0 idxb hlt0 hltb hpos
      rw [hget0, hgetb] at hrel
      simpa [finPerfDesc] using hrel
  · intro a b hab hval
    have hperf_sub : List.Sublist
        [(a, (finRebased data a).getD i 0),
         (b, (finRebased data b).getD i 0)]
        (finPerfList data assets i) := by
      have := hab.map (fun s => (s, (finRebased data s).getD i 0))
      simpa [finPerfList] using this
    have hdesc : finPerfDesc (a, (finRebased data a).getD i 0)
        (b, (finRebased data b).getD i 0) := by
      unfold finPerfDesc
      rw [show ((a, (finRebased data a).getD i 0) : String × ℚ).2
          = (finRebased data a).getD i 0 from rfl]
      rw [hval]
      simp
    have hst := List.pair_sublist_mergeSort finPerfDesc_trans
      finPerfDesc_total hdesc hperf_sub
    obtain ⟨i1, j1, hij, h1, h2⟩ := pair_sublist_getElem? hst
    exact ⟨i1 + 1, j1 + 1,
      rankMapOf_lookup _ finPerfDesc hndk i1 _ h1,
      rankMapOf_lookup _ finPerfDesc hndk j1 _ h2, by omega⟩

theorem rebased_getD_fin (data : List Observation) (a : String)
    (h0 : startPriceOf data a ≠ 0) {i : ℕ} (hi : i < data.length) :
    (rebasedSeries data a).getD i JsNum.nan
      = JsNum.fin ((finRebased data a).getD i 0) := by
  rw [rebasedSeries_eq_map_fin data a h0]
  have hlen : i < (finRebased data a).length := by
    simpa [finRebased] using hi
  rw [getD_map_of_lt _ _ _ hlen]
  have hg : (finRebased data a).getD i 0 = (finRebased data a)[i] := by
    rw [List.getD_eq_getElem?_getD, List.getElem?_eq_getElem hlen]
    rfl
  rw [hg]

theorem perfList_eq_fin (data : List Observation) (assets : List String)
    (i : ℕ) (hi : i < data.length)
    (h0 : ∀ a ∈ assets, startPriceOf data a ≠ 0) :
    perfList data assets i
      = (finPerfList data assets i).map (fun p => (p.1, JsNum.fin p.2)) := by
  unfold perfList finPerfList
  rw [List.map_map]
  apply List.map_congr_left
  intro a ha
  show (a, (rebasedSeries data a).getD i JsNum.nan)
    = (a, JsNum.fin ((finRebased data a).getD i 0))
  rw [rebased_getD_fin data a (h0 a ha) hi]

theorem rankMapOf_map_fin (l : List (String × ℚ)) :
    rankMapOf (l.map (fun p => (p.1, JsNum.fin p.2))) = rankMapOf l := by
  have key : ∀ (t : List (String × ℚ)) (n : ℕ) (init : String → Option ℕ),
      ((t.map (fun p => (p.1, JsNum.fin p.2))).enumFrom n).foldl
        (fun m p => updVal m p.2.1 (some (p.1 + 1))) init
      = (t.enumFrom n).foldl
        (fun m p => updVal m p.2.1 (some (p.1 + 1))) init := by
    intro t
    induction t with
    | nil => intro n init; rfl
    | cons p rest ih =>
      intro n init
      simp only [List.map_cons, List.enumFrom_cons, List.foldl_cons]
      exact ih (n + 1) _
  exact key l 0 _

theorem ranksAt_eq_fin (data : List Observation) (assets : List String)
    (i : ℕ) (hi : i < data.length)
    (h0 : ∀ a ∈ assets, startPriceOf data a ≠ 0) :
    ranksAt data assets i = finRanksAt data assets i := by
  unfold ranksAt finRanksAt
  rw [perfList_eq_fin data assets i hi h0]
  have hcompat : ∀ p ∈ finPerfList data assets i,
      ∀ q ∈ finPerfList data assets i,
      finPerfDesc p q
        = perfDesc (p.1, JsNum.fin p.2) (q.1, JsNum.fin q.2) := by
    intro p _ q _
    show decide (q.2 ≤ p.2) = perfDesc (p.1, JsNum.fin p.2) (q.1, JsNum.fin q.2)
    have hsub : perfDesc (p.1, JsNum.fin p.2) (q.1, JsNum.fin q.2)
        = decide (q.2 - p.2 ≤ 0) := rfl
    rw [hsub, decide_eq_decide]
    exact Iff.symm sub_nonpos
  have hms := @List.map_mergeSort (String × ℚ) (String × JsNum) finPerfDesc
    perfDesc (fun p => (p.1, JsNum.fin p.2)) (finPerfList data assets i)
    hcompat
  rw [← hms, rankMapOf_map_fin]

theorem jsLe_fin (a b : ℚ) :
    jsLe (JsNum.fin a) (JsNum.fin b) = decide (a ≤ b) := rfl

theorem mergeSort_pair {α : Type} (le : α → α → Bool) (x y : α) :
    [x, y].mergeSort le = if le x y then [x, y] else [y, x] := by
  rw [List.mergeSort]
  simp only [List.splitInTwo_fst, List.splitInTwo_snd]
  by_cases h : le x y <;> simp [h, List.cons_merge_cons]

/-- Claim C4, as stated, is false: with the base asset `A` at start
price `0`, `A`'s rebased value is `NaN`; the comparator
`B.val - A.val` evaluates to `NaN`, which `SortCompare` coerces to
`+0`, so the stable sort keeps `A` at rank 1 even though `B` holds the
unique highest rebased value `100` — under the JS comparison `B`'s
value is not `<=` `A`'s, so rank 1 does not go to the asset with the
highest rebased value. -/
theorem claim_c4_counterexample :
    ∃ m, process cxRawZeroPair ["A", "B"] = ProcessResult.ok m
    ∧ ∃ rm : String → Option ℕ, m.ranks[0]? = some rm
      ∧ rm "A" = some 1 ∧ rm "B" = some 2
      ∧ (rebasedSeries (forwardFill cxRawZeroPair ["A", "B"]) "A").getD 0
          JsNum.nan = JsNum.nan
      ∧ (rebasedSeries (forwardFill cxRawZeroPair ["A", "B"]) "B").getD 0
          JsNum.nan = JsNum.fin 100
      ∧ jsLe (JsNum.fin 100) JsNum.nan = false := by
  have hok : process cxRawZeroPair ["A", "B"]
      = ProcessResult.ok (assembleModel
          (forwardFill cxRawZeroPair ["A", "B"]) ["A", "B"]) := rfl
  have hpl : perfList (forwardFill cxRawZeroPair ["A", "B"]) ["A", "B"] 0
      = [("A", JsNum.nan), ("B", jsMul100 (jsDiv 1 1))] := rfl
  have hcmp : perfDesc ("A", JsNum.nan) ("B", jsMul100 (jsDiv 1 1))
      = true := rfl
  have hsort : (perfList (forwardFill cxRawZeroPair ["A", "B"])
        ["A", "B"] 0).mergeSort perfDesc
      = [("A", JsNum.nan), ("B", jsMul100 (jsDiv 1 1))] := by
    rw [hpl, mergeSort_pair, hcmp]
    simp
  have hrm : (assembleModel (forwardFill cxRawZeroPair ["A", "B"])
        ["A", "B"]).ranks[0]?
      = some (ranksAt (forwardFill cxRawZeroPair ["A", "B"]) ["A", "B"] 0) :=
    rfl
  have hB : (rebasedSeries (forwardFill cxRawZeroPair ["A", "B"]) "B").getD 0
      JsNum.nan = JsNum.fin 100 := by
    show jsMul100 (jsDiv 1 1) = JsNum.fin 100
    rw [jsDiv_of_ne 1 1 (by norm_num)]
    show JsNum.fin (1 / 1 * 100) = JsNum.fin 100
    norm_num
  refine ⟨_, hok, ranksAt (forwardFill cxRawZeroPair ["A", "B"]) ["A", "B"] 0,
    hrm, ?_, ?_, rfl, hB, rfl⟩
  · show rankMapOf ((perfList (forwardFill cxRawZeroPair ["A", "B"])
        ["A", "B"] 0).mergeSort perfDesc) "A" = some 1
    rw [hsort]
    rfl
  · show rankMapOf ((perfList (forwardFill cxRawZeroPair ["A", "B"])
        ["A", "B"] 0).mergeSort perfDesc) "B" = some 2
    rw [hsort]
    rfl

/-- Claim C4 (amended): for every successful run over distinct assets
and every date index of the clean series, the rank map assigns to the
N requested assets exactly the values 1..N, each exactly once; and
*provided every requested asset's start price is nonzero* (so no
rebased value is `NaN`), rank 1 goes to an asset whose rebased value
on that date is highest under the JS comparison, and equal rebased
values keep the assets' relative input order. -/
theorem claim_c4 (raw : List Observation) (assets : List String)
    (m : ProcessedModel) (h : process raw assets = ProcessResult.ok m)
    (hnd : assets.Nodup) (i : ℕ) (hi : i < m.dates.length) :
    ∃ rm : String → Option ℕ, m.ranks[i]? = some rm
    ∧ ((assets.map rm).Perm
        ((List.range assets.length).map (fun k => some (k + 1))))
    ∧ ((∀ a ∈ assets, startPriceOf (forwardFill raw assets) a ≠ 0) →
        (∀ a ∈ assets, rm a = some 1 → ∀ b ∈ assets,
          jsLe ((rebasedSeries (forwardFill raw assets) b).getD i JsNum.nan)
            ((rebasedSeries (forwardFill raw assets) a).getD i JsNum.nan)
          = true)
        ∧ (∀ a b : String, List.Sublist [a, b] assets →
            (rebasedSeries (forwardFill raw assets) a).getD i JsNum.nan
              = (rebasedSeries (forwardFill raw assets) b).getD i JsNum.nan →
            ∃ ra rb : ℕ, rm a = some ra ∧ rm b = some rb ∧ ra < rb)) := by
  obtain ⟨rfl, -, -⟩ := process_ok_inv h
  have hi2 : i < (forwardFill raw assets).length := by
    simpa [assembleModel] using hi
  have hrm : (assembleModel (forwardFill raw assets) assets).ranks[i]?
      = some (ranksAt (forwardFill raw assets) assets i) := by
    show (ranksList (forwardFill raw assets) assets)[i]? = _
    simp [ranksList, List.getElem?_map, List.getElem?_range, hi2]
  have hkeys : (perfList (forwardFill raw assets) assets i).map
      (fun p => p.1) = assets := by
    unfold perfList
    exact map_pair_fst assets _
  have hndk : ((perfList (forwardFill raw assets) assets i).map
      (fun p => p.1)).Nodup := by
    rw [hkeys]
    exact hnd
  refine ⟨ranksAt (forwardFill raw assets) assets i, hrm, ?_,
    fun h0 => ⟨?_, ?_⟩⟩
  · have hp := rankMapOf_perm (perfList (forwardFill raw assets) assets i)
      perfDesc hndk
    rw [hkeys] at hp
    have hlen : (perfList (forwardFill raw assets) assets i).length
        = assets.length := by
      unfold perfList
      simp
    rw [hlen] at hp
    exact hp
  · intro a ha h1 b hb
    have heq := ranksAt_eq_fin (forwardFill raw assets) assets i hi2 h0
    rw [heq] at h1
    have hmax := (finRanksAt_spec (forwardFill raw assets) assets i hnd).1
      a ha h1 b hb
    rw [rebased_getD_fin (forwardFill raw assets) a (h0 a ha) hi2,
      rebased_getD_fin (forwardFill raw assets) b (h0 b hb) hi2, jsLe_fin]
    exact decide_eq_true hmax
  · intro a b hab hval
    have ha : a ∈ assets := hab.subset (List.mem_cons_self a [b])
    have hb : b ∈ assets := hab.subset
      (List.mem_cons_of_mem a (List.mem_cons_self b []))
    have heq := ranksAt_eq_fin (forwardFill raw assets) assets i hi2 h0
    rw [heq]
    rw [rebased_getD_fin (forwardFill raw assets) a (h0 a ha) hi2,
      rebased_getD_fin (forwardFill raw assets) b (h0 b hb) hi2] at hval
    have hval2 : (finRebased (forwardFill raw assets) a).getD i 0
        = (finRebased (forwardFill raw assets) b).getD i 0 := by
      simpa using hval
    exact (finRanksAt_spec (forwardFill raw assets) assets i hnd).2
      a b hab hval2

/-- Claim C4 witness: on the concrete run of `exRaw` (nonzero start
prices) the date-0 rank map is a bijection onto ranks {1, 2} and the
rank-1 asset has the highest rebased value under the JS comparison. -/
theorem claim_c4_witness :
    ∃ m, process exRaw ["A", "B"] = ProcessResult.ok m
    ∧ ∃ rm : String → Option ℕ, m.ranks[0]? = some rm
      ∧ ((["A", "B"].map rm).Perm
          ((List.range 2).map (fun k => some (k + 1))))
      ∧ (∀ a ∈ (["A", "B"] : List String), rm a = some 1 →
          ∀ b ∈ (["A", "B"] : List String),
            jsLe ((rebasedSeries (forwardFill exRaw ["A", "B"]) b).getD 0
                JsNum.nan)
              ((rebasedSeries (forwardFill exRaw ["A", "B"]) a).getD 0
                JsNum.nan) = true) := by
  have hok : process exRaw ["A", "B"]
      = ProcessResult.ok (assembleModel (forwardFill exRaw ["A", "B"])
          ["A", "B"]) := rfl
  have h0 : ∀ a ∈ (["A", "B"] : List String),
      startPriceOf (forwardFill exRaw ["A", "B"]) a ≠ 0 := by
    intro a ha
    rcases List.mem_cons.mp ha with rfl | ha2
    · have hv : startPriceOf (forwardFill exRaw ["A", "B"]) "A" = 2 := rfl
      rw [hv]
      norm_num
    · rcases List.mem_cons.mp ha2 with rfl | ha3
      · have hv : startPriceOf (forwardFill exRaw ["A", "B"]) "B" = 4 := rfl
        rw [hv]
        norm_num
      · simp at ha3
  obtain ⟨rm, h1, h2, h3⟩ :=
    claim_c4 exRaw ["A", "B"] _ hok (by decide) 0 (by decide)
  exact ⟨_, hok, rm, h1, h2, (h3 h0).1⟩

end FXViz
